import Mathlib

/-!
Verification of the chipa-ta streaming technical-analysis engine.

This file is a shallow embedding, in Lean 4, of the parts of the chipa-ta
Rust code base that the specification's claims talk about:

* the `OutputType` value algebra and its partial ordering (`src/types.rs`),
* the bounded FIFO window `Queue` (`src/types.rs`),
* the streaming indicators EMA (`src/indicators/ema.rs`),
  SMMA (`src/indicators/smma.rs`), standard deviation
  (`src/indicators/sd.rs`) and the stochastic oscillator
  (`src/indicators/stoch.rs`),
* the condition / operator layer (`src/strategy/condition.rs`,
  `src/strategy/wrapper.rs`),
* the strategy AST and its warm-up state machine
  (`src/strategy/node.rs`, `src/strategy/strat.rs`).

Modelling conventions:

* Rust `f64` is modelled by `ℚ` (named `F` below).  Every concrete number
  appearing in a theorem of this file is a small dyadic rational, on which
  IEEE-754 double arithmetic is exact, so the rational computations below
  agree bit for bit with the Rust ones.  `ℚ` has no NaN/infinity; no claim
  settled here exercises NaN inputs (NaN only arises in the code when it is
  fed in from outside, or from `MarketData::Float(_).volume()`, a path no
  theorem below depends on).
* Rust `Result<T, TaError>` is `Except TaError T`.  A Rust method that
  takes `&mut self` and returns `Result<T, E>` becomes a Lean function
  returning `Except E T × State`: the state component is returned in every
  case, mirroring the fact that in Rust the mutations performed before an
  early `?`-return persist.
* The strategy layer is generic over the wrapped indicator type `I`
  together with its `next`/`period` interface (`IndicatorImpl`), exactly
  the interface `src/strategy/wrapper.rs` consumes; theorems about this
  layer therefore hold for every indicator of the closed `Indicator` enum.
-/

namespace ChipaTa

/-- Model of Rust `f64` (see the conventions above). -/
abbrev F := ℚ

/-- The error enum of `src/error.rs` (`TaError`), restricted to the
variants reachable from the embedded code. -/
inductive TaError where
  | invalidParameter (msg : String)
  | notInitialized (msg : String)
  | unexpected (msg : String)
  | incorrectOutputType (expected actual : String)
  deriving DecidableEq, Repr

/-- `Result<T, TaError>` of `src/error.rs`. -/
abbrev TaResult (α : Type) := Except TaError α

/-- Trading actions, `src/strategy/action.rs`. -/
inductive Action where
  | StrongBuy
  | Buy
  | Hold
  | Sell
  | StrongSell
  deriving DecidableEq, Repr

/-- One OHLCV sample, `Bar` (re-exported through `src/helper_types.rs`). -/
structure Bar where
  open_ : F
  high : F
  low : F
  close : F
  volume : F
  price : F
  deriving DecidableEq, Repr

/-- `MarketData`, `src/strategy/market_data.rs`. -/
inductive MarketData where
  | Bar (bar : Bar)
  | Float (value : F)
  deriving DecidableEq, Repr

/-- Surrogate for the `f64::NAN` that `MarketData::Float(_).volume()`
returns in the source.  IEEE NaN has no counterpart in `ℚ`; no theorem in
this file depends on this value (it can only flow into the resolution of a
`Volume` placeholder against `Float` data). -/
def floatVolumeNan : F := 0

/-- `Candle::open` for `MarketData`. -/
def MarketData.openPrice : MarketData → F
  | .Bar b => b.open_
  | .Float v => v

/-- `Candle::close` for `MarketData`. -/
def MarketData.closePrice : MarketData → F
  | .Bar b => b.close
  | .Float v => v

/-- `Candle::high` for `MarketData`. -/
def MarketData.highPrice : MarketData → F
  | .Bar b => b.high
  | .Float v => v

/-- `Candle::low` for `MarketData`. -/
def MarketData.lowPrice : MarketData → F
  | .Bar b => b.low
  | .Float v => v

/-- `Candle::volume` for `MarketData` (NaN surrogate for `Float`). -/
def MarketData.volumeOf : MarketData → F
  | .Bar b => b.volume
  | .Float _ => floatVolumeNan

/-- The `Statics` sentinel values of `src/types.rs`. -/
inductive Statics where
  | Greater
  | Equal
  | Less
  | True
  | False
  deriving DecidableEq, Repr

/-- `impl PartialOrd<f64> for Statics` (`src/types.rs`): the sentinel fixes
the ordering outcome and ignores the number. -/
def Statics.pcmpF : Statics → F → Option Ordering
  | .Greater, _ => some .gt
  | .Equal, _ => some .eq
  | .Less, _ => some .lt
  | .True, _ => some .eq
  | .False, _ => some .eq

/-- `f64::partial_cmp` on non-NaN values (total on `ℚ`). -/
def cmpF (a b : F) : Option Ordering :=
  some (if a < b then .lt else if a = b then .eq else .gt)

/-- `OutputType`, `src/types.rs`. -/
inductive OutputType where
  | Single (x : F)
  | Array (xs : List F)
  | Open
  | Close
  | High
  | Low
  | Volume
  | Custom (xs : List OutputType)
  | Static (s : Statics)
  | Statics (xs : List Statics)

mutual

/-- Rust derived `PartialEq::eq` for `OutputType`: structural equality,
with numeric (`f64`) equality on the leaves. -/
def OutputType.beq : OutputType → OutputType → Bool
  | .Single a, .Single b => a == b
  | .Array a, .Array b => a == b
  | .Open, .Open => true
  | .Close, .Close => true
  | .High, .High => true
  | .Low, .Low => true
  | .Volume, .Volume => true
  | .Custom a, .Custom b => OutputType.beqList a b
  | .Static a, .Static b => a == b
  | .Statics a, .Statics b => a == b
  | _, _ => false

/-- Elementwise `OutputType.beq` on the `Custom` payload. -/
def OutputType.beqList : List OutputType → List OutputType → Bool
  | [], [] => true
  | a :: arest, b :: brest => OutputType.beq a b && OutputType.beqList arest brest
  | _, _ => false

end

/-- The elementwise-agreement step of the `Array` arms of
`OutputType::partial_cmp`: the collected orderings must all equal the
first one, otherwise the comparison is undefined. -/
def allEqHead : List Ordering → Option Ordering
  | [] => none
  | o :: rest => if rest.all (fun o' => o' == o) then some o else none

/-- `impl PartialOrd for OutputType` (`src/types.rs`, `partial_cmp`),
arm for arm.  Note the source quirks preserved here: within the mixed
`Static`/`Statics` arms the sentinel is always placed on the left of the
inner comparison regardless of which side it appeared on, and every
variant combination not listed (in particular `Single` vs `Array`)
compares as `None`. -/
def OutputType.pcmp : OutputType → OutputType → Option Ordering
  | .Single a, .Single b => cmpF a b
  | .Array a, .Array b =>
      if a.length ≠ b.length then none
      else
        let equals := (a.zip b).filterMap (fun p => cmpF p.1 p.2)
        allEqHead equals
  | .Single a, .Static b => b.pcmpF a
  | .Static b, .Single a => b.pcmpF a
  | .Array a, .Statics b =>
      if a.length ≠ b.length then none
      else allEqHead ((b.zip a).filterMap (fun p => p.1.pcmpF p.2))
  | .Statics b, .Array a =>
      if a.length ≠ b.length then none
      else allEqHead ((b.zip a).filterMap (fun p => p.1.pcmpF p.2))
  | _, _ => none

/-- Rust `PartialOrd::lt` for `OutputType`. -/
def OutputType.ltB (a b : OutputType) : Bool := a.pcmp b == some .lt

/-- Rust `PartialOrd::gt` for `OutputType`. -/
def OutputType.gtB (a b : OutputType) : Bool := a.pcmp b == some .gt

/-- Rust `PartialOrd::le` for `OutputType`. -/
def OutputType.leB (a b : OutputType) : Bool :=
  a.pcmp b == some .lt || a.pcmp b == some .eq

/-- Rust `PartialOrd::ge` for `OutputType`. -/
def OutputType.geB (a b : OutputType) : Bool :=
  a.pcmp b == some .gt || a.pcmp b == some .eq

/-- Rust derived `PartialEq::eq` for `OutputType` (structural, with
numeric equality on the `f64` leaves). -/
def OutputType.eqB (a b : OutputType) : Bool := OutputType.beq a b

mutual

/-- `OutputType::resolve` (`src/types.rs`): turn placeholders into
concrete `Single`/`Array` values by reading the candle. -/
def OutputType.resolve : OutputType → MarketData → TaResult OutputType
  | .Single x, _ => .ok (.Single x)
  | .Array xs, _ => .ok (.Array xs)
  | .Open, d => .ok (.Single d.openPrice)
  | .Close, d => .ok (.Single d.closePrice)
  | .High, d => .ok (.Single d.highPrice)
  | .Low, d => .ok (.Single d.lowPrice)
  | .Volume, d => .ok (.Single d.volumeOf)
  | .Custom xs, d =>
      match OutputType.resolveList xs d with
      | .ok out => .ok (.Array out)
      | .error e => .error e
  | .Static s, _ => .ok (.Static s)
  | .Statics xs, _ => .ok (.Statics xs)

/-- The loop inside the `Custom` arm of `OutputType::resolve`: each
element must resolve to a `Single`, anything else is an
`IncorrectOutputType` error. -/
def OutputType.resolveList : List OutputType → MarketData → TaResult (List F)
  | [], _ => .ok []
  | ot :: rest, d =>
      match OutputType.resolve ot d with
      | .ok (.Single v) =>
          match OutputType.resolveList rest d with
          | .ok out => .ok (v :: out)
          | .error e => .error e
      | .ok _ => .error (.incorrectOutputType "Single" "Array")
      | .error e => .error e

end

/-- The condition operators, `Operator` in `src/strategy/condition.rs`.
`CrossOver`/`CrossUnder` own their previous-value slot. -/
inductive Operator where
  | GreaterThan
  | LessThan
  | Equals
  | GreaterThanOrEqual
  | LessThanOrEqual
  | CrossOver (prev : Option OutputType)
  | CrossUnder (prev : Option OutputType)

/-- `Operator::evaluate` (`src/strategy/condition.rs`): the relational
operators are read-only; the cross operators consult the stored previous
value (first evaluation, with no previous value, is `false`) and then
overwrite that slot with the current left-hand value. -/
def Operator.evaluate : Operator → OutputType → OutputType →
    TaResult Bool × Operator
  | .GreaterThan, lhs, rhs => (.ok (lhs.gtB rhs), .GreaterThan)
  | .LessThan, lhs, rhs => (.ok (lhs.ltB rhs), .LessThan)
  | .Equals, lhs, rhs => (.ok (lhs.eqB rhs), .Equals)
  | .GreaterThanOrEqual, lhs, rhs => (.ok (lhs.geB rhs), .GreaterThanOrEqual)
  | .LessThanOrEqual, lhs, rhs => (.ok (lhs.leB rhs), .LessThanOrEqual)
  | .CrossUnder prev, lhs, rhs =>
      let result := match prev with
        | some p => p.geB rhs && lhs.ltB rhs
        | none => false
      (.ok result, .CrossUnder (some lhs))
  | .CrossOver prev, lhs, rhs =>
      let result := match prev with
        | some p => p.leB rhs && lhs.gtB rhs
        | none => false
      (.ok result, .CrossOver (some lhs))

/-! ## The bounded FIFO window (`Queue`, `src/types.rs`) -/

/-- `Queue<T>` of `src/types.rs`: a `Vec` with a fixed capacity
(`period`) that evicts from the front once the capacity is exceeded. -/
structure Queue (α : Type) where
  queue : List α
  period : Nat

/-- `Queue::new` (`src/types.rs`): fails with `InvalidParameter` when the
capacity is zero. -/
def Queue.new (α : Type) (period : Nat) : TaResult (Queue α) :=
  if period == 0 then
    .error (.invalidParameter "Period must be greater than 0")
  else
    .ok { queue := [], period := period }

/-- `Queue::push` (`src/types.rs`): append, and if the new length exceeds
the capacity remove and return the front (oldest) element. -/
def Queue.push (q : Queue α) (value : α) : Option α × Queue α :=
  let qs := q.queue ++ [value]
  if q.period < qs.length then
    (qs.head?, { q with queue := qs.tail })
  else
    (none, { q with queue := qs })

/-- Push a whole list, oldest first, discarding the evictions (used to
describe states reached by a sequence of pushes). -/
def Queue.pushAll (q : Queue α) : List α → Queue α
  | [] => q
  | x :: xs => ((q.push x).2).pushAll xs

/-! ## Exponential moving average (`src/indicators/ema.rs`) -/

/-- `ExponentialMovingAverage`, `src/indicators/ema.rs`. -/
structure ExponentialMovingAverage where
  period : Nat
  k : F
  current : F
  isNew : Bool
  deriving DecidableEq, Repr

/-- `ExponentialMovingAverage::new`: rejects period 0, otherwise sets the
smoothing constant `k = 2/(period+1)`. -/
def ExponentialMovingAverage.new (period : Nat) :
    TaResult ExponentialMovingAverage :=
  match period with
  | 0 => .error (.invalidParameter "0")
  | _ => .ok { period := period, k := 2 / ((period : F) + 1),
               current := 0, isNew := true }

/-- `Next<f64>::next` for the EMA: the first call seeds with the input
unchanged, later calls apply `current = k*input + (1-k)*current`.  (The
Rust method wraps the result in `Ok`; it never fails.) -/
def ExponentialMovingAverage.next (s : ExponentialMovingAverage) (input : F) :
    ExponentialMovingAverage × F :=
  if s.isNew then
    ({ s with isNew := false, current := input }, input)
  else
    let c := s.k * input + (1 - s.k) * s.current
    ({ s with current := c }, c)

/-- `Reset::reset` for the EMA. -/
def ExponentialMovingAverage.reset (s : ExponentialMovingAverage) :
    ExponentialMovingAverage :=
  { s with current := 0, isNew := true }

/-- Feed a list of inputs through an EMA, collecting the outputs. -/
def ExponentialMovingAverage.run (s : ExponentialMovingAverage) :
    List F → List F
  | [] => []
  | x :: xs =>
      let (s', y) := s.next x
      y :: s'.run xs

/-! ## Smoothed moving average (`src/indicators/smma.rs`) -/

/-- `SmoothedMovingAverage`, `src/indicators/smma.rs`. -/
structure SmoothedMovingAverage where
  period : Nat
  queue : Queue F
  smma : Option F

/-- `SmoothedMovingAverage::new`: rejects periods below 2, then creates
the window and pushes a dummy `0.0` into it before any real input. -/
def SmoothedMovingAverage.new (period : Nat) :
    TaResult SmoothedMovingAverage :=
  if period < 2 then
    .error (.invalidParameter (toString period))
  else
    match Queue.new F period with
    | .error e => .error e
    | .ok q =>
        let q := (q.push 0).2
        .ok { period := period, queue := q, smma := none }

/-- `Next<f64>::next` for the SMMA.  While no seed exists, inputs are
pushed into the window; the push that overflows the window triggers the
seed: the average of the window contents *after* the eviction.  Once the
seed exists, `smma = (prev*(period-1) + input)/period` and the window is
no longer touched. -/
def SmoothedMovingAverage.next (s : SmoothedMovingAverage) (input : F) :
    SmoothedMovingAverage × F :=
  match s.smma with
  | none =>
      let (evicted, q') := s.queue.push input
      match evicted with
      | some _ =>
          let sum := q'.queue.sum
          let avg := sum / (s.period : F)
          ({ s with queue := q', smma := some avg }, avg)
      | none => ({ s with queue := q' }, input)
  | some prev =>
      let v := (prev * ((s.period : F) - 1) + input) / (s.period : F)
      ({ s with smma := some v }, v)

/-- Feed a list of inputs through an SMMA, collecting the outputs. -/
def SmoothedMovingAverage.run (s : SmoothedMovingAverage) :
    List F → List F
  | [] => []
  | x :: xs =>
      let (s', y) := s.next x
      y :: s'.run xs

/-! ## Standard deviation (`src/indicators/sd.rs`) -/

/-- `StandardDeviation`, `src/indicators/sd.rs`: rolling Welford state
over a ring buffer (`deque`, of fixed length `period`). -/
structure StandardDeviation where
  period : Nat
  index : Nat
  count : Nat
  m : F
  m2 : F
  deque : List F
  deriving DecidableEq, Repr

/-- `StandardDeviation::new`: rejects period 0; the ring buffer starts
zero-filled. -/
def StandardDeviation.new (period : Nat) : TaResult StandardDeviation :=
  match period with
  | 0 => .error (.invalidParameter "Period must be greater than 0")
  | _ => .ok { period := period, index := 0, count := 0, m := 0, m2 := 0,
               deque := List.replicate period 0 }

/-- `Next<f64>::next` for the standard deviation, up to the final
`.sqrt()`: the returned `F` is the radicand `m2 / count` (the Rust code
returns its square root).  The Welford update has a growing-window branch
(`count < period`) and a rolling branch that subtracts the evicted value;
`m2` is clamped to `0` when it goes negative. -/
def StandardDeviation.next (s : StandardDeviation) (input : F) :
    StandardDeviation × F :=
  let oldVal := s.deque.getD s.index 0
  let deque := s.deque.set s.index input
  let index := if s.index + 1 < s.period then s.index + 1 else 0
  let st :=
    if s.count < s.period then
      let count := s.count + 1
      let delta := input - s.m
      let m := s.m + delta / (count : F)
      let delta2 := input - m
      { s with deque := deque, index := index, count := count, m := m,
               m2 := s.m2 + delta * delta2 }
    else
      let delta := input - oldVal
      let oldM := s.m
      let m := s.m + delta / (s.period : F)
      let delta2 := input - m + oldVal - oldM
      { s with deque := deque, index := index, m := m,
               m2 := s.m2 + delta * delta2 }
  let st := if st.m2 < 0 then { st with m2 := 0 } else st
  (st, st.m2 / (st.count : F))

/-! ## Simple moving average (spec-modelled) and the stochastic
oscillator (`src/indicators/stoch.rs`) -/

/-- Modelled from the spec: `SimpleMovingAverage`
(`src/indicators/sma.rs` is declared in `src/indicators/mod.rs` but the
file is absent from this snapshot).  Spec §4.2: "SMA: arithmetic mean of
last `period` inputs via a Window; before the window fills, returns the
mean of however many samples have been seen (partial average), never an
error." -/
structure SimpleMovingAverage where
  period : Nat
  window : List F
  deriving DecidableEq, Repr

/-- Modelled from the spec: `SimpleMovingAverage::new` fails with
`InvalidParameter` on period 0 (spec §4.2 error conditions). -/
def SimpleMovingAverage.new (period : Nat) : TaResult SimpleMovingAverage :=
  if period == 0 then
    .error (.invalidParameter "Period must be greater than 0")
  else
    .ok { period := period, window := [] }

/-- Modelled from the spec: `SimpleMovingAverage::next` pushes the input
into the FIFO window (evicting beyond `period`) and returns the mean of
the window contents. -/
def SimpleMovingAverage.next (s : SimpleMovingAverage) (input : F) :
    SimpleMovingAverage × F :=
  let w := s.window ++ [input]
  let w := if s.period < w.length then w.tail else w
  ({ s with window := w }, w.sum / (w.length : F))

/-- `f64::MIN`, the fold seed of the highest-high computation in
`src/indicators/stoch.rs` (exact value of the most negative finite
double). -/
def f64MIN : F := -(2 ^ 1024 - 2 ^ 971)

/-- `f64::MAX`, the fold seed of the lowest-low computation in
`src/indicators/stoch.rs`. -/
def f64MAX : F := 2 ^ 1024 - 2 ^ 971

/-- `StochasticOscillator`, `src/indicators/stoch.rs`: the window of
`(high, low, close)` triples and the `%D` smoothing SMA. -/
structure StochasticOscillator where
  period : Nat
  smoothingPeriod : Nat
  values : List (F × F × F)
  d : SimpleMovingAverage
  deriving DecidableEq, Repr

/-- `StochasticOscillator::new`: rejects period 0 and builds the `%D`
SMA from the smoothing period. -/
def StochasticOscillator.new (period smoothingPeriod : Nat) :
    TaResult StochasticOscillator :=
  if period == 0 then
    .error (.invalidParameter "Period must be greater than 0")
  else
    match SimpleMovingAverage.new smoothingPeriod with
    | .error e => .error e
    | .ok d => .ok { period := period, smoothingPeriod := smoothingPeriod,
                     values := [], d := d }

/-- `Next<&T>::next` for the stochastic oscillator: push the candle's
`(high, low, close)` (evicting beyond `period`), fold the window for the
highest high / lowest low starting from `f64::MIN` / `f64::MAX`, compute
raw `%K` (0 on a degenerate range), smooth it through the `%D` SMA, and
return `(%K * 100, %D * 100)`. -/
def StochasticOscillator.next (s : StochasticOscillator) (c : Bar) :
    StochasticOscillator × (F × F) :=
  let values := s.values ++ [(c.high, c.low, c.close)]
  let values := if s.period < values.length then values.tail else values
  let highestHigh := values.foldl (fun acc v => max acc v.1) f64MIN
  let lowestLow := values.foldl (fun acc v => min acc v.2.1) f64MAX
  let close := c.close
  let k := if highestHigh - lowestLow = 0 then 0
           else (close - lowestLow) / (highestHigh - lowestLow)
  let (d', dv) := s.d.next k
  ({ s with values := values, d := d' }, (k * 100, dv * 100))

/-- `Reset::reset` for the stochastic oscillator
(`src/indicators/stoch.rs`): it clears `values` but — unlike every other
composite indicator's reset — does *not* reset the `%D` SMA `d`. -/
def StochasticOscillator.reset (s : StochasticOscillator) :
    StochasticOscillator :=
  { s with values := [] }

/-- Feed a list of candles through a stochastic oscillator, collecting
the `(%K, %D)` outputs. -/
def StochasticOscillator.run (s : StochasticOscillator) :
    List Bar → List (F × F)
  | [] => []
  | c :: cs =>
      let (s', y) := s.next c
      y :: s'.run cs

/-! ## Helper lemmas -/

theorem singleLeB (a b : F) :
    (OutputType.Single a).leB (.Single b) = decide (a ≤ b) := by
  simp only [OutputType.leB, OutputType.pcmp, cmpF]
  rcases lt_trichotomy a b with h | h | h
  · simp [h, h.le] <;> decide
  · subst h; simp <;> decide
  · simp [not_lt.mpr h.le, h.ne', not_le.mpr h] <;> decide

theorem singleGeB (a b : F) :
    (OutputType.Single a).geB (.Single b) = decide (b ≤ a) := by
  simp only [OutputType.geB, OutputType.pcmp, cmpF]
  rcases lt_trichotomy a b with h | h | h
  · simp [h, not_le.mpr h] <;> decide
  · subst h; simp <;> decide
  · simp [not_lt.mpr h.le, h.ne', h.le] <;> decide

theorem singleGtB (a b : F) :
    (OutputType.Single a).gtB (.Single b) = decide (b < a) := by
  simp only [OutputType.gtB, OutputType.pcmp, cmpF]
  rcases lt_trichotomy a b with h | h | h
  · simp [h, h.asymm] <;> decide
  · subst h; simp <;> decide
  · simp [not_lt.mpr h.le, h.ne', h] <;> decide

theorem singleLtB (a b : F) :
    (OutputType.Single a).ltB (.Single b) = decide (a < b) := by
  simp only [OutputType.ltB, OutputType.pcmp, cmpF]
  rcases lt_trichotomy a b with h | h | h
  · simp [h] <;> decide
  · subst h; simp <;> decide
  · simp [not_lt.mpr h.le, h.ne', h.asymm] <;> decide

theorem Queue.push_period (q : Queue α) (v : α) :
    ((q.push v).2).period = q.period := by
  simp only [Queue.push]
  split <;> rfl

theorem Queue.pushAll_period (xs : List α) :
    ∀ (q : Queue α), (q.pushAll xs).period = q.period := by
  induction xs with
  | nil => intro q; rfl
  | cons x xs ih =>
      intro q
      simp only [Queue.pushAll]
      rw [ih, Queue.push_period]

theorem Queue.push_none_of_lt (q : Queue α) (v : α)
    (h : q.queue.length < q.period) : (q.push v).1 = none := by
  simp only [Queue.push, List.length_append, List.length_cons]
  have : ¬ q.period < q.queue.length + 1 := by omega
  simp [this]

theorem Queue.push_len_le (q : Queue α) (v : α)
    (h : q.queue.length ≤ q.period) :
    ((q.push v).2).queue.length ≤ q.period := by
  simp only [Queue.push]
  split
  next hcond =>
    simp only [List.length_tail, List.length_append, List.length_singleton]
    omega
  next hcond =>
    simp only [not_lt, List.length_append, List.length_singleton] at hcond ⊢
    omega

theorem Queue.pushAll_queue :
    ∀ (xs : List α) (q : Queue α), q.queue.length ≤ q.period →
      (q.pushAll xs).queue =
        (q.queue ++ xs).drop (q.queue.length + xs.length - q.period) := by
  intro xs
  induction xs with
  | nil =>
      intro q h
      simp [Queue.pushAll, Nat.sub_eq_zero_of_le h]
  | cons x xs ih =>
      intro q h
      simp only [Queue.pushAll]
      by_cases hlt : q.queue.length < q.period
      · have hpush : (q.push x).2 = { q with queue := q.queue ++ [x] } := by
          simp only [Queue.push, List.length_append, List.length_singleton]
          have hno : ¬ q.period < q.queue.length + 1 := by omega
          simp [hno]
        rw [hpush, ih _ (by
          simp only [List.length_append, List.length_singleton]
          omega)]
        rw [List.append_assoc, List.singleton_append]
        congr 1
        dsimp only
        simp only [List.length_append, List.length_singleton,
          List.length_cons, List.length_nil]
        omega
      · have hpush : (q.push x).2 =
            { q with queue := (q.queue ++ [x]).tail } := by
          simp only [Queue.push, List.length_append, List.length_singleton]
          have hyes : q.period < q.queue.length + 1 := by omega
          simp [hyes]
        rw [hpush, ih _ (by
          simp only [List.length_tail, List.length_append,
            List.length_singleton]
          omega)]
        dsimp only
        have e1 : (q.queue ++ [x]).tail.length + xs.length - q.period
            = xs.length := by
          simp only [List.length_tail, List.length_append,
            List.length_singleton]
          omega
        have e2 : q.queue.length + (x :: xs).length - q.period
            = xs.length + 1 := by
          simp only [List.length_cons]
          omega
        rw [e1, e2]
        cases q.queue with
        | nil => simp
        | cons y l =>
            simp [List.drop_succ_cons, List.append_assoc]

/-! ## Claim theorems for the value algebra and the indicators -/

/-- **C3.**  For every `CrossOver` or `CrossUnder` condition whose `prev`
slot is unset, the first `evaluate()` returns `false` regardless of the
current and threshold values; on every evaluation, `CrossOver` returns
true iff `prev <= threshold && current > threshold` and `CrossUnder`
returns true iff `prev >= threshold && current < threshold` (in the
`OutputType` partial order, which on `Single` scalars is the numeric
order, as the last two conjuncts make explicit); and the operator's
`prev` slot is overwritten with the current left-hand value as a side
effect of every evaluation. -/
theorem C3_crossover_semantics :
    (∀ lhs rhs, Operator.evaluate (.CrossOver none) lhs rhs
        = (.ok false, .CrossOver (some lhs))) ∧
    (∀ lhs rhs, Operator.evaluate (.CrossUnder none) lhs rhs
        = (.ok false, .CrossUnder (some lhs))) ∧
    (∀ p lhs rhs, Operator.evaluate (.CrossOver (some p)) lhs rhs
        = (.ok (p.leB rhs && lhs.gtB rhs), .CrossOver (some lhs))) ∧
    (∀ p lhs rhs, Operator.evaluate (.CrossUnder (some p)) lhs rhs
        = (.ok (p.geB rhs && lhs.ltB rhs), .CrossUnder (some lhs))) ∧
    (∀ p t c : F,
        (Operator.evaluate (.CrossOver (some (.Single p)))
            (.Single c) (.Single t)).1
          = .ok (decide (p ≤ t) && decide (t < c))) ∧
    (∀ p t c : F,
        (Operator.evaluate (.CrossUnder (some (.Single p)))
            (.Single c) (.Single t)).1
          = .ok (decide (t ≤ p) && decide (c < t))) := by
  refine ⟨fun _ _ => rfl, fun _ _ => rfl, fun _ _ _ => rfl,
    fun _ _ _ => rfl, ?_, ?_⟩
  · intro p t c
    simp only [Operator.evaluate, singleLeB p t, singleGtB c t]
  · intro p t c
    simp only [Operator.evaluate, singleGeB p t, singleLtB c t]

/-- **C6 (counterexample).**  The claim says that comparing a `Single`
against an `Array` of length ≠ 1 yields a `TypeMismatch`/`LengthMismatch`
error.  At the concrete input `Single 1.0` vs `Array [1.0, 2.0]` under
`GreaterThan`, `Operator::evaluate` in fact returns `Ok(false)` — a
boolean, not an error (the `partial_cmp` is `None` and `gt` maps that to
`false`). -/
theorem C6_single_array_counterexample :
    (Operator.evaluate .GreaterThan (.Single 1) (.Array [1, 2])).1
      = .ok false := by
  rfl

/-- **C6 (amended).**  Comparing a `Single` `OutputType` against an
`Array` of length ≠ 1 through any operator yields `Ok(false)` (the
comparison is indeterminate — `partial_cmp` returns `None` — and every
relational operator maps that to `false`); it never panics and never
yields an error. -/
theorem C6_single_array_indeterminate (op : Operator) (x : F) (ys : List F)
    (h : ys.length ≠ 1) :
    (Operator.evaluate op (.Single x) (.Array ys)).1 = .ok false := by
  cases op with
  | GreaterThan => rfl
  | LessThan => rfl
  | Equals => rfl
  | GreaterThanOrEqual => rfl
  | LessThanOrEqual => rfl
  | CrossOver prev =>
      cases prev with
      | none => rfl
      | some p =>
          simp [Operator.evaluate, OutputType.gtB, OutputType.pcmp]
  | CrossUnder prev =>
      cases prev with
      | none => rfl
      | some p =>
          simp [Operator.evaluate, OutputType.ltB, OutputType.pcmp]

/-- Witness for `C6_single_array_indeterminate` at `GreaterThan`,
`Single 1.0` vs `Array [1.0, 2.0]`. -/
theorem C6_single_array_indeterminate_witness :
    (Operator.evaluate .GreaterThan (.Single 1) (.Array [1, 2])).1
      = .ok false :=
  C6_single_array_indeterminate .GreaterThan 1 [1, 2] (by decide)

/-- **C7.**  For every EMA of period `n`, the smoothing constant is
`k = 2/(n+1)`, the first advance call returns its input unchanged, and
each subsequent call returns `k*input + (1-k)*previous`; in particular
`EMA::new(3)` fed `[2, 5, 1, 6.25]` returns exactly
`[2.0, 3.5, 2.25, 4.25]`. -/
theorem C7_ema_semantics :
    (∀ p s, ExponentialMovingAverage.new p = .ok s →
        s.k = 2 / ((p : F) + 1) ∧ (∀ x, (s.next x).2 = x)) ∧
    (∀ (s : ExponentialMovingAverage) (x : F), s.isNew = false →
        (s.next x).2 = s.k * x + (1 - s.k) * s.current) ∧
    (∀ (s : ExponentialMovingAverage) (x : F),
        ((s.next x).1).isNew = false) ∧
    (match ExponentialMovingAverage.new 3 with
     | .ok s => s.run [2, 5, 1, 6.25]
     | .error _ => []) = [2, 3.5, 2.25, 4.25] := by
  refine ⟨?_, ?_, ?_, ?_⟩
  · intro p s h
    cases p with
    | zero => simp [ExponentialMovingAverage.new] at h
    | succ n =>
        simp only [ExponentialMovingAverage.new, Except.ok.injEq] at h
        subst h
        exact ⟨rfl, fun x => by simp [ExponentialMovingAverage.next]⟩
  · intro s x h
    simp [ExponentialMovingAverage.next, h]
  · intro s x
    by_cases h : s.isNew <;> simp [ExponentialMovingAverage.next, h]
  · norm_num [ExponentialMovingAverage.new, ExponentialMovingAverage.run,
      ExponentialMovingAverage.next]

/-- Witness for `C7_ema_semantics`: instantiated at a freshly constructed
`EMA(3)` (so `k = 1/2`) and at a post-seed state. -/
theorem C7_ema_semantics_witness :
    ((({ period := 3, k := 2 / ((3 : F) + 1), current := 0, isNew := true } :
        ExponentialMovingAverage).next 2).2 = 2) ∧
    ((({ period := 3, k := 1/2, current := 2, isNew := false } :
        ExponentialMovingAverage).next 5).2
      = 1/2 * 5 + (1 - 1/2) * 2) :=
  ⟨((C7_ema_semantics.1 3 _ rfl).2 2),
   (C7_ema_semantics.2.1
      { period := 3, k := 1/2, current := 2, isNew := false } 5 rfl)⟩

/-- **C9.**  For every `StandardDeviation` state and every input, the
advance call clamps the internal `m2` to be nonnegative, so the radicand
`m2 / count` that the code takes the square root of is `>= 0`, and the
returned value `sqrt(m2/count)` is `>= 0` (in particular it is a real
number, not NaN). -/
theorem C9_sd_nonneg (s : StandardDeviation) (x : F) :
    0 ≤ ((s.next x).1).m2 ∧ 0 ≤ (s.next x).2 ∧
      0 ≤ Real.sqrt (((s.next x).2 : ℚ) : ℝ) := by
  have h2 : 0 ≤ ((s.next x).1).m2 := by
    simp only [StandardDeviation.next]
    split <;> split <;> split <;>
      (rename_i hcond
       first
         | exact le_rfl
         | exact le_of_not_lt hcond)
  refine ⟨h2, ?_, Real.sqrt_nonneg _⟩
  have hval : (s.next x).2
      = ((s.next x).1).m2 / (((s.next x).1).count : F) := rfl
  rw [hval]
  exact div_nonneg h2 (by positivity)

/-- **C8.**  The bounded window `Queue`: construction with capacity 0
fails with `InvalidParameter`; a push onto a window holding fewer than
`capacity` elements returns `None`; a push never grows the window beyond
its capacity (`len() <= c` is preserved, and holds after any sequence of
pushes from a fresh window); and every push beyond the capacity evicts
and returns exactly the element inserted `c` pushes earlier (FIFO). -/
theorem C8_queue_window :
    (∀ (α : Type), Queue.new α 0
        = .error (.invalidParameter "Period must be greater than 0")) ∧
    (∀ (α : Type) (q : Queue α) (v : α),
        q.queue.length < q.period → (q.push v).1 = none) ∧
    (∀ (α : Type) (q : Queue α) (v : α),
        q.queue.length ≤ q.period →
        ((q.push v).2).queue.length ≤ q.period) ∧
    (∀ (α : Type) (c : Nat) (q0 : Queue α) (xs : List α),
        Queue.new α c = .ok q0 →
        (q0.pushAll xs).queue.length ≤ c) ∧
    (∀ (α : Type) (c : Nat) (q0 : Queue α) (xs : List α) (x : α),
        1 ≤ c → Queue.new α c = .ok q0 → c ≤ xs.length →
        ((q0.pushAll xs).push x).1 = xs[xs.length - c]?) := by
  have hnew : ∀ (α : Type) (c : Nat) (q0 : Queue α), Queue.new α c = .ok q0 →
      q0 = { queue := [], period := c } := by
    intro α c q0 h
    by_cases hc : c = 0
    · subst hc; simp [Queue.new] at h
    · simp only [Queue.new, beq_iff_eq, hc, if_false, Except.ok.injEq] at h
      exact h.symm
  refine ⟨fun α => rfl, fun α q v h => Queue.push_none_of_lt q v h,
    fun α q v h => Queue.push_len_le q v h, ?_, ?_⟩
  · intro α c q0 xs h
    have h0 := hnew α c q0 h
    subst h0
    have hper := Queue.pushAll_period (α := α) xs { queue := [], period := c }
    have hq := Queue.pushAll_queue (α := α) xs { queue := [], period := c }
      (by simp)
    rw [hq]
    simp only [List.nil_append, List.length_nil, Nat.zero_add,
      List.length_drop]
    omega
  · intro α c q0 xs x hc h hlen
    have h0 := hnew α c q0 h
    subst h0
    have hq := Queue.pushAll_queue (α := α) xs { queue := [], period := c }
      (by simp)
    have hper := Queue.pushAll_period (α := α) xs { queue := [], period := c }
    simp only [List.nil_append, List.length_nil, Nat.zero_add] at hq
    -- the queue before the overflowing push holds the last `c` elements
    have hlenq : (({ queue := [], period := c } :
        Queue α).pushAll xs).queue.length = c := by
      rw [hq]
      simp only [List.length_drop]
      omega
    simp only [Queue.push, hlenq, hper]
    have hover : c < (({ queue := [], period := c} :
        Queue α).pushAll xs).queue.length + 1 := by omega
    rw [hq]
    simp only [List.length_drop, List.length_append, List.length_singleton]
    have : c < xs.length - (xs.length - c) + 1 := by omega
    simp only [this, if_true]
    rw [List.head?_append_of_ne_nil]
    · exact List.head?_drop xs (xs.length - c)
    · intro hnil
      have := congrArg List.length hnil
      simp only [List.length_drop, List.length_nil] at this
      omega

/-- Witness for `C8_queue_window`: capacity 2, pushes `[10, 20, 30]` and
then `40`, which must evict `20 = xs[1]` (inserted two pushes earlier);
plus the length bound after those pushes. -/
theorem C8_queue_window_witness :
    ((({ queue := [], period := 2 } :
        Queue Nat).pushAll [10, 20, 30]).push 40).1
      = ([10, 20, 30] : List Nat)[3 - 2]? ∧
    (({ queue := [], period := 2 } :
        Queue Nat).pushAll [10, 20, 30]).queue.length ≤ 2 ∧
    (({ queue := [], period := 2 } : Queue Nat).push 10).1 = none :=
  ⟨C8_queue_window.2.2.2.2 Nat 2 _ [10, 20, 30] 40 (by decide) rfl
      (by decide),
   C8_queue_window.2.2.2.1 Nat 2 _ [10, 20, 30] rfl,
   C8_queue_window.2.1 Nat _ 10 (by decide)⟩

/-! ## C5: SMMA seed semantics -/

/-- Reference description of the *amended* C5 behavior, written from its
words: while fewer than `n - 1` real inputs have been seen the input is
returned unchanged; the `n`-th input triggers the seed, which is the
simple average of the first `n` real inputs (`seen.sum + x) / n` — the
dummy zero is *not* among the summands, having been evicted by the
overflowing push); afterwards `(prev*(n-1) + input)/n`. -/
def smmaSpecAux (n : Nat) : List F → Option F → List F → List F
  | _, _, [] => []
  | seen, some p, x :: xs =>
      let v := (p * ((n : F) - 1) + x) / (n : F)
      v :: smmaSpecAux n seen (some v) xs
  | seen, none, x :: xs =>
      if seen.length + 1 < n then
        x :: smmaSpecAux n (seen ++ [x]) none xs
      else
        let v := (seen.sum + x) / (n : F)
        v :: smmaSpecAux n seen (some v) xs

/-- The amended C5 output sequence for an SMMA of period `n`. -/
def smmaSpec (n : Nat) (xs : List F) : List F := smmaSpecAux n [] none xs

theorem smma_run_spec_seeded (n : Nat) :
    ∀ (xs : List F) (q : Queue F) (p : F) (seen : List F),
      SmoothedMovingAverage.run
          { period := n, queue := q, smma := some p } xs
        = smmaSpecAux n seen (some p) xs := by
  intro xs
  induction xs with
  | nil => intro q p seen; rfl
  | cons x xs ih =>
      intro q p seen
      simp only [SmoothedMovingAverage.run, SmoothedMovingAverage.next,
        smmaSpecAux]
      exact congrArg _ (ih q _ seen)

theorem smma_run_spec_fill (n : Nat) (hn : 2 ≤ n) :
    ∀ (xs : List F) (seen : List F), seen.length + 1 ≤ n →
      SmoothedMovingAverage.run
          { period := n, queue := { queue := 0 :: seen, period := n },
            smma := none } xs
        = smmaSpecAux n seen none xs := by
  intro xs
  induction xs with
  | nil => intro seen _; rfl
  | cons x xs ih =>
      intro seen hlen
      simp only [SmoothedMovingAverage.run, SmoothedMovingAverage.next]
      by_cases hfill : seen.length + 1 < n
      · -- no eviction: the window keeps filling, the input passes through
        have hpush : Queue.push { queue := 0 :: seen, period := n } x
            = (none, { queue := 0 :: (seen ++ [x]), period := n }) := by
          simp only [Queue.push, List.cons_append, List.length_cons,
            List.length_append, List.length_singleton, List.length_nil]
          have hno : ¬ n < seen.length + 1 + 1 := by omega
          simp [hno]
        simp only [hpush, smmaSpecAux, hfill, if_true]
        refine congrArg _ (ih (seen ++ [x]) ?_)
        simp only [List.length_append, List.length_singleton]
        omega
      · -- the push overflows: the dummy zero is evicted, the seed is the
        -- average of the real inputs seen so far plus the current one
        have hpush : Queue.push { queue := 0 :: seen, period := n } x
            = (some 0, { queue := seen ++ [x], period := n }) := by
          simp only [Queue.push, List.cons_append, List.length_cons,
            List.length_append, List.length_singleton, List.length_nil]
          have hyes : n < seen.length + 1 + 1 := by omega
          simp [hyes]
        simp only [hpush, smmaSpecAux, hfill, if_false]
        have hsum : (seen ++ [x]).sum = seen.sum + x := by simp
        simp only [hsum]
        exact congrArg _ (smma_run_spec_seeded n xs _ _ seen)

/-- **C5 (amended).**  For every SMMA of period `n >= 2` (that is, every
SMMA the constructor accepts), the output sequence on any input list is
`smmaSpec n`: the first `n-1` advance calls return the input unchanged;
the `n`-th call returns the simple average of the first `n` real inputs —
the dummy leading zero pushed at construction is evicted by the `n`-th
push before the sum is taken, so it is *not* a summand and the seed is
the exact (unskewed) mean; and every subsequent call returns
`(prev*(n-1) + input)/n`. -/
theorem C5_smma_seed (n : Nat) (s : SmoothedMovingAverage) (xs : List F)
    (h : SmoothedMovingAverage.new n = .ok s) :
    s.run xs = smmaSpec n xs := by
  have hn : ¬ n < 2 := by
    intro hlt
    simp [SmoothedMovingAverage.new, hlt] at h
  simp only [SmoothedMovingAverage.new, hn, if_false] at h
  have hq : Queue.new F n = .ok { queue := [], period := n } := by
    simp only [Queue.new, beq_iff_eq]
    have : ¬ n = 0 := by omega
    simp [this]
  rw [hq] at h
  simp only [Queue.push, List.nil_append, List.length_singleton] at h
  have hno : ¬ n < 1 := by omega
  simp only [hno, if_false, Except.ok.injEq] at h
  subst h
  exact smma_run_spec_fill n (by omega) xs [] (by simp; omega)

/-- Witness for `C5_smma_seed` at period 3 and inputs `[1, 2, 3, 4]`. -/
theorem C5_smma_seed_witness :
    ({ period := 3, queue := { queue := [0], period := 3 }, smma := none } :
        SmoothedMovingAverage).run [1, 2, 3, 4] = smmaSpec 3 [1, 2, 3, 4] :=
  C5_smma_seed 3 _ [1, 2, 3, 4] rfl

/-- **C5 (counterexample).**  The claim says the `n`-th output is a
simple average whose summands include the dummy leading zero pushed at
construction together with the real inputs.  For `SMMA::new(3)` fed
`[3, 6, 9]` the outputs are `[3, 6, 6]`: the third (seed) output is
`6 = (3+6+9)/3`, the mean of the three *real* inputs alone, whereas an
average whose summands were the dummy zero together with the real inputs
present when the seed is computed would be `(0+3+6)/3 = 3 ≠ 6` — the
dummy zero is evicted before the sum and never skews the seed. -/
theorem C5_smma_counterexample :
    (match SmoothedMovingAverage.new 3 with
     | .ok s => s.run [3, 6, 9]
     | .error _ => []) = [3, 6, 6] ∧ ((0 + 3 + 6 : F) / 3 ≠ 6) := by
  constructor
  · norm_num [SmoothedMovingAverage.new, SmoothedMovingAverage.run,
      SmoothedMovingAverage.next, Queue.new, Queue.push]
  · norm_num

/-! ## C2: reset is not equivalent to a fresh instance -/

/-- First candle of the C2 failing input: high 20, low 10, close 15. -/
def c2Bar1 : Bar :=
  { open_ := 0, high := 20, low := 10, close := 15, volume := 0, price := 0 }

/-- Second candle of the C2 failing input: high 20, low 10, close 20. -/
def c2Bar2 : Bar :=
  { open_ := 0, high := 20, low := 10, close := 20, volume := 0, price := 0 }

/-- **C2 (refuted on the code — the code is the bug).**  The claim (and
spec §8, "idempotent reset") requires every indicator's `reset()` to
reproduce a freshly constructed instance.  `StochasticOscillator::reset`
clears the `(high, low, close)` window but forgets the `%D` SMA, so a
reset oscillator replays the same candle differently from a fresh one:
`Stoch::new(1, 2)` fed candle (20,10,15) then (20,10,20), reset, and fed
(20,10,15) again outputs `(%K, %D) = (50, 75)`, while a fresh instance
fed (20,10,15) outputs `(50, 50)`. -/
theorem C2_stoch_reset_bug :
    (match StochasticOscillator.new 1 2 with
     | .ok s => some ((((s.next c2Bar1).1.next c2Bar2).1.reset).run [c2Bar1],
                      s.run [c2Bar1])
     | .error _ => none) = some ([(50, 75)], [(50, 50)])
    ∧ ((50 : F), (75 : F)) ≠ ((50 : F), (50 : F)) := by
  constructor
  · norm_num [StochasticOscillator.new, StochasticOscillator.run,
      StochasticOscillator.next, StochasticOscillator.reset,
      SimpleMovingAverage.new, SimpleMovingAverage.next,
      c2Bar1, c2Bar2, f64MIN, f64MAX]
  · norm_num

/-! ## The strategy layer (`src/strategy/`)

The condition and node trees wrap indicators through exactly the
interface of `src/strategy/wrapper.rs`: `next` on market data (the
`advance_candle` path) and `period`.  The embedding is generic over the
wrapped indicator type `I` with that interface packaged as
`IndicatorImpl`, so every theorem below holds for every variant of the
closed `Indicator` enum (and any extension wrapper). -/

/-- The interface of the wrapped `Indicator` enum consumed by
`src/strategy/wrapper.rs`: `Next<&MarketData>` (the state is returned in
both the ok and the error case, like a `&mut self` receiver) and
`Period`. -/
structure IndicatorImpl (I : Type) where
  next : I → MarketData → TaResult OutputType × I
  period : I → Nat

/-- `IndicatorState`, `src/strategy/wrapper.rs`: the wrapped indicator
plus the cached previous output. -/
structure IndicatorState (I : Type) where
  indicator : I
  previousOutput : Option OutputType

/-- `IndicatorState::update`: advance the wrapped indicator and cache its
output; on error the cache is left unchanged. -/
def IndicatorState.update (impl : IndicatorImpl I) (s : IndicatorState I)
    (data : MarketData) : TaResult Unit × IndicatorState I :=
  match impl.next s.indicator data with
  | (.ok out, ind) => (.ok (), { indicator := ind, previousOutput := some out })
  | (.error e, ind) => (.error e, { s with indicator := ind })

/-- `IndicatorState::prev`: the cached output, or `NotInitialized`. -/
def IndicatorState.prev (s : IndicatorState I) : TaResult OutputType :=
  match s.previousOutput with
  | some o => .ok o
  | none => .error (.notInitialized "No previous output available")

/-- `Condition`, `src/strategy/condition.rs`. -/
inductive Condition (I : Type) where
  | Value (indicator : IndicatorState I) (value : OutputType)
      (operator : Operator)
  | Indicator (left : IndicatorState I) (right : IndicatorState I)
      (operator : Operator)
  | And (conds : List (Condition I))
  | Or (conds : List (Condition I))
  | Not (c : Condition I)

mutual

/-- `Condition::update` (`src/strategy/condition.rs`): recursively
advance every wrapped indicator once, caching outputs; errors propagate
(`?`) but the mutations already performed persist. -/
def Condition.update (impl : IndicatorImpl I) :
    Condition I → MarketData → TaResult Unit × Condition I
  | .Value ind v op, data =>
      let (r, ind') := ind.update impl data
      (r, .Value ind' v op)
  | .Indicator l r op, data =>
      let (res, l') := l.update impl data
      match res with
      | .error e => (.error e, .Indicator l' r op)
      | .ok _ =>
          let (res2, r') := r.update impl data
          (res2, .Indicator l' r' op)
  | .And conds, data =>
      let (r, cs) := Condition.updateList impl conds data
      (r, .And cs)
  | .Or conds, data =>
      let (r, cs) := Condition.updateList impl conds data
      (r, .Or cs)
  | .Not c, data =>
      let (r, c') := Condition.update impl c data
      (r, .Not c')

/-- The `for c in conds` loop of `Condition::update` on `And`/`Or`:
stop at the first error, leaving the remaining conditions untouched. -/
def Condition.updateList (impl : IndicatorImpl I) :
    List (Condition I) → MarketData → TaResult Unit × List (Condition I)
  | [], _ => (.ok (), [])
  | c :: rest, data =>
      let (r, c') := Condition.update impl c data
      match r with
      | .error e => (.error e, c' :: rest)
      | .ok _ =>
          let (r2, rest') := Condition.updateList impl rest data
          (r2, c' :: rest')

end

mutual

/-- `Condition::evaluate` (`src/strategy/condition.rs`): leaves read the
cached previous outputs (they do not advance the indicator), resolve the
compared value against the bar, and apply the operator (whose `prev`
slot mutates for the cross operators); `And`/`Or` short-circuit, `Not`
negates. -/
def Condition.evaluate (impl : IndicatorImpl I) :
    Condition I → MarketData → TaResult Bool × Condition I
  | .Value ind v op, data =>
      match ind.prev with
      | .error e => (.error e, .Value ind v op)
      | .ok lhs =>
          match v.resolve data with
          | .error e => (.error e, .Value ind v op)
          | .ok rhs =>
              let (r, op') := op.evaluate lhs rhs
              (r, .Value ind v op')
  | .Indicator l r op, data =>
      match l.prev with
      | .error e => (.error e, .Indicator l r op)
      | .ok lhs =>
          match r.prev with
          | .error e => (.error e, .Indicator l r op)
          | .ok rhs =>
              let (res, op') := op.evaluate lhs rhs
              (res, .Indicator l r op')
  | .And conds, data =>
      let (r, cs) := Condition.evaluateAnd impl conds data
      (r, .And cs)
  | .Or conds, data =>
      let (r, cs) := Condition.evaluateOr impl conds data
      (r, .Or cs)
  | .Not c, data =>
      let (r, c') := Condition.evaluate impl c data
      match r with
      | .error e => (.error e, .Not c')
      | .ok b => (.ok (!b), .Not c')

/-- The `And` loop of `Condition::evaluate`: return `false` at the first
false child (the remaining children are *not* evaluated and keep their
state), propagate the first error likewise. -/
def Condition.evaluateAnd (impl : IndicatorImpl I) :
    List (Condition I) → MarketData → TaResult Bool × List (Condition I)
  | [], _ => (.ok true, [])
  | c :: rest, data =>
      let (r, c') := Condition.evaluate impl c data
      match r with
      | .error e => (.error e, c' :: rest)
      | .ok false => (.ok false, c' :: rest)
      | .ok true =>
          let (r2, rest') := Condition.evaluateAnd impl rest data
          (r2, c' :: rest')

/-- The `Or` loop of `Condition::evaluate`: return `true` at the first
true child, propagate the first error. -/
def Condition.evaluateOr (impl : IndicatorImpl I) :
    List (Condition I) → MarketData → TaResult Bool × List (Condition I)
  | [], _ => (.ok false, [])
  | c :: rest, data =>
      let (r, c') := Condition.evaluate impl c data
      match r with
      | .error e => (.error e, c' :: rest)
      | .ok true => (.ok true, c' :: rest)
      | .ok false =>
          let (r2, rest') := Condition.evaluateOr impl rest data
          (r2, c' :: rest')

end

mutual

/-- `Condition::max_period` (`src/strategy/condition.rs`). -/
def Condition.maxPeriod (impl : IndicatorImpl I) : Condition I → Option Nat
  | .Value ind _ _ => some (impl.period ind.indicator)
  | .Indicator l r _ =>
      some (max (impl.period l.indicator) (impl.period r.indicator))
  | .And conds => Condition.maxPeriodList impl conds
  | .Or conds => Condition.maxPeriodList impl conds
  | .Not c => Condition.maxPeriod impl c

/-- `conds.iter().filter_map(|c| c.max_period()).max()`. -/
def Condition.maxPeriodList (impl : IndicatorImpl I) :
    List (Condition I) → Option Nat
  | [] => none
  | c :: rest =>
      match Condition.maxPeriod impl c, Condition.maxPeriodList impl rest with
      | none, o => o
      | some p, none => some p
      | some p, some q => some (max p q)

end

/-- `PreprocessingStep`, `src/preprocessing/mod.rs` (both steps are
documented placeholders that return the data unchanged). -/
inductive PreprocessingStep where
  | WaveletDenoise
  | Normalize
  deriving DecidableEq, Repr

/-- `PreprocessingStep::apply` (placeholder: returns a clone of the
data unchanged). -/
def PreprocessingStep.apply : PreprocessingStep → MarketData → MarketData
  | _, d => d

/-- `SequenceMode`, `src/strategy/node.rs`. -/
inductive SequenceMode where
  | First
  | Any
  | All
  | Majority
  | Percentage (p : Nat)
  deriving DecidableEq, Repr

/-- `StrategyNode`, `src/strategy/node.rs`. -/
inductive StrategyNode (I : Type) where
  | Preprocess (step : PreprocessingStep)
  | If (condition : Condition I) (thenBranch : StrategyNode I)
      (elseBranch : Option (StrategyNode I))
  | Timeout (cooldown : Nat) (remaining : Nat) (action : StrategyNode I)
  | Action (action : ChipaTa.Action)
  | Sequence (mode : SequenceMode) (nodes : List (StrategyNode I))

/-- The `counts` HashMap of the `Majority`/`Percentage` arms of
`StrategyNode::evaluate`, as an association list.  Rust iterates a
`std::collections::HashMap`, whose iteration order is *unspecified*; this
model fixes first-insertion order as one admissible order.  Theorems that
use `StrategyNode.evaluate` below do not depend on the order; claim C4
additionally quantifies over every permutation of these counts. -/
def countActions (actions : List ChipaTa.Action) :
    List (ChipaTa.Action × Nat) :=
  actions.foldl (fun counts a =>
    if counts.any (fun p => p.1 = a) then
      counts.map (fun p => if p.1 = a then (p.1, p.2 + 1) else p)
    else
      counts ++ [(a, 1)]) []

/-- Rust `Iterator::max_by_key` over the counts: returns the *last*
maximum when several entries tie. -/
def maxByKeyLast (l : List (ChipaTa.Action × Nat)) :
    Option ChipaTa.Action :=
  (l.foldl (fun best p =>
    match best with
    | none => some p
    | some q => if q.2 ≤ p.2 then some p else some q) none).map (·.1)

/-- The aggregation `match mode` of the `Sequence` arm of
`StrategyNode::evaluate`, applied to the collected non-`Hold` actions. -/
def chooseAction (mode : SequenceMode) (actions : List ChipaTa.Action) :
    ChipaTa.Action :=
  match mode with
  | .First | .Any => actions.headD .Hold
  | .All =>
      match actions.head? with
      | some first => if actions.all (fun a => a = first) then first else .Hold
      | none => .Hold
  | .Majority => (maxByKeyLast (countActions actions)).getD .Hold
  | .Percentage percentage =>
      let total := actions.length
      ((countActions actions).filterMap (fun p =>
        if percentage ≤ p.2 * 100 / total then some p.1 else none)).headD
        .Hold

mutual

/-- `StrategyNode::evaluate` (`src/strategy/node.rs`): `Preprocess`
applies the step and yields `Hold`; `If` routes through the condition;
`Action` yields its action; `Sequence` collects non-`Hold` child results
under the mode's early-exit policy and aggregates them; `Timeout`
decrements a positive `remaining` and yields `Hold`, otherwise evaluates
the inner node and re-arms `remaining := cooldown` on a non-`Hold`
result. -/
def StrategyNode.evaluate (impl : IndicatorImpl I) :
    StrategyNode I → MarketData → TaResult ChipaTa.Action × StrategyNode I
  | .Preprocess step, data =>
      let _ := step.apply data
      (.ok .Hold, .Preprocess step)
  | .If cond t e, data =>
      let (r, cond') := Condition.evaluate impl cond data
      match r with
      | .error err => (.error err, .If cond' t e)
      | .ok true =>
          let (r2, t') := StrategyNode.evaluate impl t data
          (r2, .If cond' t' e)
      | .ok false =>
          match e with
          | some en =>
              let (r2, e') := StrategyNode.evaluate impl en data
              (r2, .If cond' t (some e'))
          | none => (.ok .Hold, .If cond' t none)
  | .Action a, _ => (.ok a, .Action a)
  | .Sequence mode nodes, data =>
      match StrategyNode.collectActions impl mode nodes data with
      | (.error e, nodes') => (.error e, .Sequence mode nodes')
      | (.ok actions, nodes') =>
          (.ok (chooseAction mode actions), .Sequence mode nodes')
  | .Timeout cooldown remaining action, data =>
      if 0 < remaining then
        (.ok .Hold, .Timeout cooldown (remaining - 1) action)
      else
        let (r, action') := StrategyNode.evaluate impl action data
        match r with
        | .error e => (.error e, .Timeout cooldown remaining action')
        | .ok res =>
            if res ≠ .Hold then (.ok res, .Timeout cooldown cooldown action')
            else (.ok res, .Timeout cooldown remaining action')

/-- The collection loop of the `Sequence` arm: evaluate children in
order, pushing non-`Hold` results; `First`/`Any` break at the first
non-`Hold` result (children after the break keep their state); errors
propagate. -/
def StrategyNode.collectActions (impl : IndicatorImpl I)
    (mode : SequenceMode) :
    List (StrategyNode I) → MarketData →
      TaResult (List ChipaTa.Action) × List (StrategyNode I)
  | [], _ => (.ok [], [])
  | n :: rest, data =>
      let (r, n') := StrategyNode.evaluate impl n data
      match r with
      | .error e => (.error e, n' :: rest)
      | .ok res =>
          if res ≠ .Hold then
            if mode = .First ∨ mode = .Any then (.ok [res], n' :: rest)
            else
              match StrategyNode.collectActions impl mode rest data with
              | (.error e, rest') => (.error e, n' :: rest')
              | (.ok acts, rest') => (.ok (res :: acts), n' :: rest')
          else
            match StrategyNode.collectActions impl mode rest data with
            | (.error e, rest') => (.error e, n' :: rest')
            | (.ok acts, rest') => (.ok acts, n' :: rest')

end

mutual

/-- Modelled from the spec: `StrategyNode::update`.  `Strategy::evaluate`
(`src/strategy/strat.rs`, line 45) calls `self.nodes.update(data)?`, but
no `update` method for `StrategyNode` appears in the snapshot's
`src/strategy/node.rs`.  Spec §4.5/§4.6: "`update(bar)`: recursively
calls `advance_candle` on every indicator reachable in the tree exactly
once, caching its output; does not evaluate truth values" / "the tree's
`update()` is invoked (advancing all indicators so they accumulate the
necessary history) but evaluation is skipped".  The recursion visits
every condition and child node once, propagating the first error. -/
def StrategyNode.update (impl : IndicatorImpl I) :
    StrategyNode I → MarketData → TaResult Unit × StrategyNode I
  | .Preprocess step, _ => (.ok (), .Preprocess step)
  | .If cond t e, data =>
      let (r, cond') := Condition.update impl cond data
      match r with
      | .error err => (.error err, .If cond' t e)
      | .ok _ =>
          let (r2, t') := StrategyNode.update impl t data
          match r2 with
          | .error err => (.error err, .If cond' t' e)
          | .ok _ =>
              let (r3, e') := StrategyNode.updateOpt impl e data
              (r3, .If cond' t' e')
  | .Action a, _ => (.ok (), .Action a)
  | .Sequence mode nodes, data =>
      let (r, nodes') := StrategyNode.updateList impl nodes data
      (r, .Sequence mode nodes')
  | .Timeout cooldown remaining action, data =>
      let (r, action') := StrategyNode.update impl action data
      (r, .Timeout cooldown remaining action')

/-- Modelled from the spec: update of an optional `else` branch (no-op
when absent). -/
def StrategyNode.updateOpt (impl : IndicatorImpl I) :
    Option (StrategyNode I) → MarketData →
      TaResult Unit × Option (StrategyNode I)
  | none, _ => (.ok (), none)
  | some en, data =>
      let (r, en') := StrategyNode.update impl en data
      (r, some en')

/-- Modelled from the spec: the child loop of `StrategyNode::update` on
a `Sequence` (every child updated once, first error propagates). -/
def StrategyNode.updateList (impl : IndicatorImpl I) :
    List (StrategyNode I) → MarketData →
      TaResult Unit × List (StrategyNode I)
  | [], _ => (.ok (), [])
  | n :: rest, data =>
      let (r, n') := StrategyNode.update impl n data
      match r with
      | .error e => (.error e, n' :: rest)
      | .ok _ =>
          let (r2, rest') := StrategyNode.updateList impl rest data
          (r2, n' :: rest')

end

/-- Maximum of two optional periods (the `Vec`-collect-then-`max()`
idiom of `StrategyNode::max_period`). -/
def optMax : Option Nat → Option Nat → Option Nat
  | none, o => o
  | some p, none => some p
  | some p, some q => some (max p q)

mutual

/-- `StrategyNode::max_period` (`src/strategy/node.rs`). -/
def StrategyNode.maxPeriod (impl : IndicatorImpl I) :
    StrategyNode I → Option Nat
  | .Preprocess _ => none
  | .Action _ => none
  | .If cond t e =>
      optMax (optMax (Condition.maxPeriod impl cond)
        (StrategyNode.maxPeriod impl t)) (StrategyNode.maxPeriodOpt impl e)
  | .Sequence _ nodes => StrategyNode.maxPeriodList impl nodes
  | .Timeout _ _ action => StrategyNode.maxPeriod impl action

/-- `max_period` of the optional `else` branch. -/
def StrategyNode.maxPeriodOpt (impl : IndicatorImpl I) :
    Option (StrategyNode I) → Option Nat
  | some en => StrategyNode.maxPeriod impl en
  | none => none

/-- `nodes.iter().filter_map(|n| n.max_period()).max()`. -/
def StrategyNode.maxPeriodList (impl : IndicatorImpl I) :
    List (StrategyNode I) → Option Nat
  | [] => none
  | n :: rest =>
      optMax (StrategyNode.maxPeriod impl n)
        (StrategyNode.maxPeriodList impl rest)

end

/-- `Period::period` for `StrategyNode`: `max_period().unwrap_or(0)`. -/
def StrategyNode.period (impl : IndicatorImpl I) (n : StrategyNode I) :
    Nat :=
  (n.maxPeriod impl).getD 0

/-- The warm-up `State` of `src/strategy/strat.rs`. -/
inductive State where
  | Progress (n : Nat)
  | Ready
  deriving DecidableEq, Repr

/-- `Strategy`, `src/strategy/strat.rs`. -/
structure Strategy (I : Type) where
  nodes : StrategyNode I
  state : State

/-- `Strategy::new`: starts in `Progress(0)`. -/
def Strategy.new (nodes : StrategyNode I) : Strategy I :=
  { nodes := nodes, state := .Progress 0 }

/-- `Strategy::next` (`src/strategy/strat.rs`): while the bar counter is
below the tree's period it advances; at the period it transitions
(permanently) to `Ready`. -/
def Strategy.next (impl : IndicatorImpl I) (s : Strategy I) : Strategy I :=
  match s.state with
  | .Progress index =>
      if index < s.nodes.period impl then
        { s with state := .Progress (index + 1) }
      else
        { s with state := .Ready }
  | .Ready => s

/-- `Strategy::evaluate` (`src/strategy/strat.rs`): step the warm-up
state machine, then — while still in `Progress` — update the tree and
yield no decision (`none`), and — once `Ready` — evaluate the tree and
yield its action. -/
def Strategy.evaluate (impl : IndicatorImpl I) (s : Strategy I)
    (data : MarketData) : TaResult (Option ChipaTa.Action) × Strategy I :=
  let s := s.next impl
  match s.state with
  | .Progress _ =>
      let (r, nodes') := s.nodes.update impl data
      (r.map (fun _ => none), { s with nodes := nodes' })
  | .Ready =>
      let (r, nodes') := s.nodes.evaluate impl data
      (r.map some, { s with nodes := nodes' })

/-- Feed a list of bars through a strategy, collecting the per-bar
outcomes of `Strategy::evaluate`. -/
def runStrategy (impl : IndicatorImpl I) (s : Strategy I) :
    List MarketData →
      List (TaResult (Option ChipaTa.Action)) × Strategy I
  | [] => ([], s)
  | d :: rest =>
      let (o, s') := s.evaluate impl d
      let (os, s'') := runStrategy impl s' rest
      (o :: os, s'')

/-! ## C4: Majority-mode ties -/

/-- A trivial indicator implementation; used to instantiate the
generic strategy layer at concrete inputs that contain no indicators. -/
def unitImpl : IndicatorImpl Unit :=
  { next := fun i _ => (.ok (.Single 0), i), period := fun _ => 0 }

theorem perm_pair_cases {α : Type} {a b : α} (hab : a ≠ b) :
    ∀ {l : List α}, l.Perm [a, b] → l = [a, b] ∨ l = [b, a] := by
  intro l h
  have hlen : l.length = 2 := by simpa using h.length_eq
  obtain ⟨x, y, rfl⟩ := List.length_eq_two.mp hlen
  have hx : x ∈ [a, b] := h.mem_iff.mp (by simp)
  have hy : y ∈ [a, b] := h.mem_iff.mp (by simp)
  simp only [List.mem_cons, List.mem_singleton, List.not_mem_nil,
    or_false] at hx hy
  rcases hx with hxa | hxb <;> rcases hy with hya | hyb
  · exfalso
    have hb : b ∈ [x, y] := h.mem_iff.mpr (by simp)
    simp only [List.mem_cons, List.mem_singleton, List.not_mem_nil,
      or_false] at hb
    rcases hb with hb | hb
    · exact hab (hb.trans hxa).symm
    · exact hab (hb.trans hya).symm
  · exact Or.inl (by rw [hxa, hyb])
  · exact Or.inr (by rw [hxb, hya])
  · exfalso
    have ha : a ∈ [x, y] := h.mem_iff.mpr (by simp)
    simp only [List.mem_cons, List.mem_singleton, List.not_mem_nil,
      or_false] at ha
    rcases ha with ha | ha
    · exact hab (ha.trans hxb)
    · exact hab (ha.trans hyb)

/-- **C4 (refuted on the code — the code is the bug).**  The claim (and
the `SequenceMode::Majority` doc comment, "on tie defaults to Hold")
require a tie among the most frequent collected actions to yield `Hold`.
But the `Majority` arm of `StrategyNode::evaluate` takes
`counts.into_iter().max_by_key(..)` over a `HashMap` with unspecified
iteration order: when two actions tie it returns one of them (the last
maximum of whatever order the map yields), and `Hold` is only produced
when *no* non-`Hold` action was collected at all.  For the failing input
`Sequence{Majority, [Action(Buy), Action(Sell)]}` the counts are a tie
`{Buy: 1, Sell: 1}`; the first conjunct evaluates the model (whose fixed
count order makes the result `Sell`) and the second shows that for
*every* iteration order of those tied counts the chosen action is `Buy`
or `Sell` — never `Hold`. -/
theorem C4_majority_tie :
    ((StrategyNode.evaluate unitImpl
        (.Sequence .Majority [.Action .Buy, .Action .Sell])
        (.Float 0)).1 = .ok Action.Sell) ∧
    (∀ l : List (ChipaTa.Action × Nat),
        l.Perm (countActions [Action.Buy, Action.Sell]) →
        ∀ a, maxByKeyLast l = some a →
          a ≠ Action.Hold ∧ (a = Action.Buy ∨ a = Action.Sell)) := by
  constructor
  · simp [StrategyNode.evaluate, StrategyNode.collectActions, chooseAction,
      countActions, maxByKeyLast]
  · intro l hperm a ha
    have hco : countActions [Action.Buy, Action.Sell]
        = [(Action.Buy, 1), (Action.Sell, 1)] := by
      simp [countActions]
    rw [hco] at hperm
    have h2 := perm_pair_cases (a := (Action.Buy, 1))
      (b := (Action.Sell, 1)) (by simp) hperm
    rcases h2 with rfl | rfl
    · have : maxByKeyLast [(Action.Buy, 1), (Action.Sell, 1)]
          = some Action.Sell := by simp [maxByKeyLast]
      rw [this] at ha
      simp only [Option.some.injEq] at ha
      subst ha
      exact ⟨by simp, Or.inr rfl⟩
    · have : maxByKeyLast [(Action.Sell, 1), (Action.Buy, 1)]
          = some Action.Buy := by simp [maxByKeyLast]
      rw [this] at ha
      simp only [Option.some.injEq] at ha
      subst ha
      exact ⟨by simp, Or.inl rfl⟩

/-- Witness for `C4_majority_tie`: the tied counts in the order
`[(Sell, 1), (Buy, 1)]` (the reverse of the model's fixed order) pick
`Buy`, which is not `Hold`. -/
theorem C4_majority_tie_witness :
    Action.Buy ≠ Action.Hold
      ∧ (Action.Buy = Action.Buy ∨ Action.Buy = Action.Sell) :=
  C4_majority_tie.2 [(Action.Sell, 1), (Action.Buy, 1)]
    (List.Perm.swap (Action.Buy, 1) (Action.Sell, 1) [])
    Action.Buy rfl

/-! ## C10: the frame of evaluation after warm-up

`scrub` erases exactly the two pieces of state that the claim allows
evaluation to change — the `CrossOver`/`CrossUnder` `prev` slots and the
`Timeout` `remaining` counters — and keeps everything else, in
particular every `IndicatorState` (the wrapped indicator's internal
state and its cached previous output).  `scrub x = scrub y` therefore
says x and y agree except possibly on those two kinds of slots. -/

/-- Erase the cross-operators' `prev` slots. -/
def Operator.scrub : Operator → Operator
  | .CrossOver _ => .CrossOver none
  | .CrossUnder _ => .CrossUnder none
  | op => op

mutual

/-- Erase every cross-operator `prev` slot in a condition tree;
indicator states and cached outputs are kept verbatim. -/
def Condition.scrub : Condition I → Condition I
  | .Value ind v op => .Value ind v op.scrub
  | .Indicator l r op => .Indicator l r op.scrub
  | .And conds => .And (Condition.scrubList conds)
  | .Or conds => .Or (Condition.scrubList conds)
  | .Not c => .Not (Condition.scrub c)

/-- Elementwise `Condition.scrub`. -/
def Condition.scrubList : List (Condition I) → List (Condition I)
  | [] => []
  | c :: rest => Condition.scrub c :: Condition.scrubList rest

end

mutual

/-- Erase every cross-operator `prev` slot and zero every `Timeout`
`remaining` counter in a strategy tree; everything else is kept. -/
def StrategyNode.scrub : StrategyNode I → StrategyNode I
  | .Preprocess step => .Preprocess step
  | .If cond t e =>
      .If cond.scrub t.scrub
        (match e with
         | some en => some en.scrub
         | none => none)
  | .Timeout cooldown _ action => .Timeout cooldown 0 action.scrub
  | .Action a => .Action a
  | .Sequence mode nodes => .Sequence mode (StrategyNode.scrubList nodes)

/-- Elementwise `StrategyNode.scrub`. -/
def StrategyNode.scrubList : List (StrategyNode I) → List (StrategyNode I)
  | [] => []
  | n :: rest => StrategyNode.scrub n :: StrategyNode.scrubList rest

end

theorem operator_evaluate_scrub (op : Operator) (lhs rhs : OutputType) :
    ((op.evaluate lhs rhs).2).scrub = op.scrub := by
  cases op <;> rfl

mutual

theorem cond_evaluate_scrub (impl : IndicatorImpl I) :
    ∀ (c : Condition I) (d : MarketData),
      ((Condition.evaluate impl c d).2).scrub = c.scrub
  | .Value ind v op, d => by
      simp only [Condition.evaluate]
      cases ind.prev with
      | error e => rfl
      | ok lhs =>
          cases v.resolve d with
          | error e => rfl
          | ok rhs =>
              simp only [Condition.scrub]
              exact congrArg _ (operator_evaluate_scrub op lhs rhs)
  | .Indicator l r op, d => by
      simp only [Condition.evaluate]
      cases l.prev with
      | error e => rfl
      | ok lhs =>
          cases r.prev with
          | error e => rfl
          | ok rhs =>
              simp only [Condition.scrub]
              exact congrArg _ (operator_evaluate_scrub op lhs rhs)
  | .And conds, d => by
      simp only [Condition.evaluate, Condition.scrub]
      exact congrArg _ (condAnd_evaluate_scrub impl conds d)
  | .Or conds, d => by
      simp only [Condition.evaluate, Condition.scrub]
      exact congrArg _ (condOr_evaluate_scrub impl conds d)
  | .Not c, d => by
      simp only [Condition.evaluate]
      cases hr : (Condition.evaluate impl c d).1 with
      | error e =>
          simp only [hr, Condition.scrub]
          exact congrArg _ (cond_evaluate_scrub impl c d)
      | ok b =>
          simp only [hr, Condition.scrub]
          exact congrArg _ (cond_evaluate_scrub impl c d)

theorem condAnd_evaluate_scrub (impl : IndicatorImpl I) :
    ∀ (l : List (Condition I)) (d : MarketData),
      Condition.scrubList ((Condition.evaluateAnd impl l d).2)
        = Condition.scrubList l
  | [], _ => rfl
  | c :: rest, d => by
      simp only [Condition.evaluateAnd]
      cases hr : (Condition.evaluate impl c d).1 with
      | error e =>
          simp only [hr, Condition.scrubList]
          exact congrArg (· :: _) (cond_evaluate_scrub impl c d)
      | ok b =>
          cases b with
          | false =>
              simp only [hr, Condition.scrubList]
              exact congrArg (· :: _) (cond_evaluate_scrub impl c d)
          | true =>
              simp only [hr, Condition.scrubList]
              exact congrArg₂ (· :: ·) (cond_evaluate_scrub impl c d)
                (condAnd_evaluate_scrub impl rest d)

theorem condOr_evaluate_scrub (impl : IndicatorImpl I) :
    ∀ (l : List (Condition I)) (d : MarketData),
      Condition.scrubList ((Condition.evaluateOr impl l d).2)
        = Condition.scrubList l
  | [], _ => rfl
  | c :: rest, d => by
      simp only [Condition.evaluateOr]
      cases hr : (Condition.evaluate impl c d).1 with
      | error e =>
          simp only [hr, Condition.scrubList]
          exact congrArg (· :: _) (cond_evaluate_scrub impl c d)
      | ok b =>
          cases b with
          | true =>
              simp only [hr, Condition.scrubList]
              exact congrArg (· :: _) (cond_evaluate_scrub impl c d)
          | false =>
              simp only [hr, Condition.scrubList]
              exact congrArg₂ (· :: ·) (cond_evaluate_scrub impl c d)
                (condOr_evaluate_scrub impl rest d)

end

mutual

theorem node_evaluate_scrub (impl : IndicatorImpl I) :
    ∀ (n : StrategyNode I) (d : MarketData),
      ((StrategyNode.evaluate impl n d).2).scrub = n.scrub
  | .Preprocess step, d => rfl
  | .If cond t e, d => by
      cases e with
      | none =>
          simp only [StrategyNode.evaluate]
          cases hr : (Condition.evaluate impl cond d).1 with
          | error err =>
              simp only [hr, StrategyNode.scrub]
              rw [cond_evaluate_scrub impl cond d]
          | ok b =>
              cases b with
              | true =>
                  simp only [hr, StrategyNode.scrub]
                  rw [cond_evaluate_scrub impl cond d,
                    node_evaluate_scrub impl t d]
              | false =>
                  simp only [hr, StrategyNode.scrub]
                  rw [cond_evaluate_scrub impl cond d]
      | some en =>
          simp only [StrategyNode.evaluate]
          cases hr : (Condition.evaluate impl cond d).1 with
          | error err =>
              simp only [hr, StrategyNode.scrub]
              rw [cond_evaluate_scrub impl cond d]
          | ok b =>
              cases b with
              | true =>
                  simp only [hr, StrategyNode.scrub]
                  rw [cond_evaluate_scrub impl cond d,
                    node_evaluate_scrub impl t d]
              | false =>
                  simp only [hr, StrategyNode.scrub]
                  rw [cond_evaluate_scrub impl cond d,
                    node_evaluate_scrub impl en d]
  | .Action a, _ => rfl
  | .Sequence mode nodes, d => by
      simp only [StrategyNode.evaluate]
      cases hcol : StrategyNode.collectActions impl mode nodes d with
      | mk r nodes' =>
          have hn := collect_evaluate_scrub impl mode nodes d
          rw [hcol] at hn
          cases r with
          | error e =>
              dsimp only
              simp only [StrategyNode.scrub]
              rw [hn]
          | ok actions =>
              dsimp only
              simp only [StrategyNode.scrub]
              rw [hn]
  | .Timeout cooldown remaining action, d => by
      simp only [StrategyNode.evaluate]
      by_cases hrem : 0 < remaining
      · rw [if_pos hrem]
        simp only [StrategyNode.scrub]
      · rw [if_neg hrem]
        cases hr : (StrategyNode.evaluate impl action d).1 with
        | error e =>
            simp only [hr, StrategyNode.scrub]
            rw [node_evaluate_scrub impl action d]
        | ok res =>
            simp only [hr]
            by_cases hres : res ≠ Action.Hold
            · rw [if_pos hres]
              simp only [StrategyNode.scrub]
              rw [node_evaluate_scrub impl action d]
            · rw [if_neg hres]
              simp only [StrategyNode.scrub]
              rw [node_evaluate_scrub impl action d]

theorem collect_evaluate_scrub (impl : IndicatorImpl I)
    (mode : SequenceMode) :
    ∀ (l : List (StrategyNode I)) (d : MarketData),
      StrategyNode.scrubList ((StrategyNode.collectActions impl mode l d).2)
        = StrategyNode.scrubList l
  | [], _ => rfl
  | n :: rest, d => by
      simp only [StrategyNode.collectActions]
      cases hr : (StrategyNode.evaluate impl n d).1 with
      | error e =>
          simp only [hr, StrategyNode.scrubList]
          rw [node_evaluate_scrub impl n d]
      | ok res =>
          simp only [hr]
          by_cases hres : res ≠ Action.Hold
          · rw [if_pos hres]
            by_cases hmode :
                mode = SequenceMode.First ∨ mode = SequenceMode.Any
            · rw [if_pos hmode]
              simp only [StrategyNode.scrubList]
              rw [node_evaluate_scrub impl n d]
            · rw [if_neg hmode]
              cases hcol : StrategyNode.collectActions impl mode rest d with
              | mk r2 rest' =>
                  have hrest := collect_evaluate_scrub impl mode rest d
                  rw [hcol] at hrest
                  cases r2 with
                  | error e2 =>
                      dsimp only
                      simp only [StrategyNode.scrubList]
                      rw [node_evaluate_scrub impl n d, hrest]
                  | ok acts =>
                      dsimp only
                      simp only [StrategyNode.scrubList]
                      rw [node_evaluate_scrub impl n d, hrest]
          · rw [if_neg hres]
            cases hcol : StrategyNode.collectActions impl mode rest d with
            | mk r2 rest' =>
                have hrest := collect_evaluate_scrub impl mode rest d
                rw [hcol] at hrest
                cases r2 with
                | error e2 =>
                    dsimp only
                    simp only [StrategyNode.scrubList]
                    rw [node_evaluate_scrub impl n d, hrest]
                | ok acts =>
                    dsimp only
                    simp only [StrategyNode.scrubList]
                    rw [node_evaluate_scrub impl n d, hrest]

end

/-- **C10.**  Once a strategy's warm-up state machine is `Ready`,
`Strategy::evaluate` runs only `StrategyNode::evaluate` (never the
update path — evident from the `Ready` arm of the definition), and
`Condition::evaluate` reads only the cached previous outputs.  Hence on
every bar after the transition no wrapped indicator's internal state is
advanced: the resulting tree is `scrub`-equal to the original, i.e. it
agrees with it everywhere except possibly the `CrossOver`/`CrossUnder`
`prev` slots and the `Timeout` `remaining` counters (in particular every
`IndicatorState` — wrapped indicator state and cached output — is
unchanged), and the machine stays `Ready`. -/
theorem C10_ready_frame (impl : IndicatorImpl I) (s : Strategy I)
    (d : MarketData) (h : s.state = .Ready) :
    (((s.evaluate impl d).2).nodes).scrub = s.nodes.scrub ∧
    ((s.evaluate impl d).2).state = .Ready := by
  have hnext : s.next impl = s := by
    simp [Strategy.next, h]
  simp only [Strategy.evaluate, hnext, h]
  exact ⟨node_evaluate_scrub impl s.nodes d, trivial⟩

/-- The `Indicator::Ema` dispatch of `src/indicators/indicator.rs` as an
`IndicatorImpl`: `next` feeds the close price to the EMA and wraps the
result in `OutputType::Single`; `period` is the EMA's period. -/
def emaImpl : IndicatorImpl ExponentialMovingAverage :=
  { next := fun e d =>
      let r := e.next d.closePrice
      (.ok (.Single r.2), r.1),
    period := fun e => e.period }

theorem emaImpl_period_next (e : ExponentialMovingAverage)
    (d : MarketData) :
    emaImpl.period ((emaImpl.next e d).2) = emaImpl.period e := by
  by_cases h : e.isNew <;>
    simp [emaImpl, ExponentialMovingAverage.next, h]

/-- A concrete condition "EMA(2) > 0" over a freshly constructed EMA. -/
def emaCond2 : Condition ExponentialMovingAverage :=
  .Value { indicator := { period := 2, k := 2 / ((2 : F) + 1), current := 0,
                          isNew := true },
           previousOutput := none }
    (.Single 0) .GreaterThan

/-- A concrete strategy tree `If (EMA(2) > 0) Buy else Sell`. -/
def emaNodes2 : StrategyNode ExponentialMovingAverage :=
  .If emaCond2 (.Action .Buy) (some (.Action .Sell))

/-- Witness for `C10_ready_frame` at the concrete `Ready` strategy over
`emaNodes2`. -/
theorem C10_ready_frame_witness :
    (((({ nodes := emaNodes2, state := .Ready } :
          Strategy ExponentialMovingAverage).evaluate emaImpl
        (.Float 0)).2).nodes).scrub = emaNodes2.scrub ∧
    ((({ nodes := emaNodes2, state := .Ready } :
          Strategy ExponentialMovingAverage).evaluate emaImpl
        (.Float 0)).2).state = .Ready :=
  C10_ready_frame emaImpl
    { nodes := emaNodes2, state := .Ready } (.Float 0) rfl

/-! ## C1: the warm-up gate

The gate relies on the tree's `period()` being stable across warm-up
updates.  Every real indicator's `period()` is a construction parameter
that `next` never touches; this is the hypothesis `hper` below, proved
for the concrete EMA implementation by `emaImpl_period_next`. -/

theorem IndicatorState.update_period (impl : IndicatorImpl I)
    (hper : ∀ i d, impl.period ((impl.next i d).2) = impl.period i)
    (s : IndicatorState I) (d : MarketData) :
    impl.period (((s.update impl d).2).indicator)
      = impl.period s.indicator := by
  have hp := hper s.indicator d
  rcases h : impl.next s.indicator d with ⟨r, ind⟩
  rw [h] at hp
  cases r with
  | ok out =>
      simp only [IndicatorState.update, h]
      exact hp
  | error e =>
      simp only [IndicatorState.update, h]
      exact hp

mutual

theorem cond_update_maxPeriod (impl : IndicatorImpl I)
    (hper : ∀ i d, impl.period ((impl.next i d).2) = impl.period i) :
    ∀ (c : Condition I) (d : MarketData),
      Condition.maxPeriod impl ((Condition.update impl c d).2)
        = Condition.maxPeriod impl c
  | .Value ind v op, d => by
      have hp := hper ind.indicator d
      rcases h : impl.next ind.indicator d with ⟨r, i'⟩
      rw [h] at hp
      simp only [Condition.update, Condition.maxPeriod, h]
      cases r with
      | ok out => simpa using hp
      | error e => simpa using hp
  | .Indicator l r op, d => by
      rcases hu : l.update impl d with ⟨res, l'⟩
      have hl := IndicatorState.update_period impl hper l d
      rw [hu] at hl
      rcases hu2 : r.update impl d with ⟨res2, r'⟩
      have hr := IndicatorState.update_period impl hper r d
      rw [hu2] at hr
      cases res with
      | error e =>
          simp only [Condition.update, hu, Condition.maxPeriod]
          rw [hl]
      | ok u =>
          simp only [Condition.update, hu, hu2, Condition.maxPeriod]
          rw [hl, hr]
  | .And conds, d => by
      simp only [Condition.update, Condition.maxPeriod]
      exact condList_update_maxPeriod impl hper conds d
  | .Or conds, d => by
      simp only [Condition.update, Condition.maxPeriod]
      exact condList_update_maxPeriod impl hper conds d
  | .Not c, d => by
      simp only [Condition.update, Condition.maxPeriod]
      exact cond_update_maxPeriod impl hper c d

theorem condList_update_maxPeriod (impl : IndicatorImpl I)
    (hper : ∀ i d, impl.period ((impl.next i d).2) = impl.period i) :
    ∀ (l : List (Condition I)) (d : MarketData),
      Condition.maxPeriodList impl ((Condition.updateList impl l d).2)
        = Condition.maxPeriodList impl l
  | [], _ => rfl
  | c :: rest, d => by
      rcases hu : Condition.update impl c d with ⟨r, c'⟩
      have hc := cond_update_maxPeriod impl hper c d
      rw [hu] at hc
      rcases hu2 : Condition.updateList impl rest d with ⟨r2, rest'⟩
      have hrest := condList_update_maxPeriod impl hper rest d
      rw [hu2] at hrest
      cases r with
      | error e =>
          simp only [Condition.updateList, hu, Condition.maxPeriodList]
          rw [hc]
      | ok u =>
          simp only [Condition.updateList, hu, hu2, Condition.maxPeriodList]
          rw [hc, hrest]

end

mutual

theorem node_update_maxPeriod (impl : IndicatorImpl I)
    (hper : ∀ i d, impl.period ((impl.next i d).2) = impl.period i) :
    ∀ (n : StrategyNode I) (d : MarketData),
      StrategyNode.maxPeriod impl ((StrategyNode.update impl n d).2)
        = StrategyNode.maxPeriod impl n
  | .Preprocess step, _ => rfl
  | .Action a, _ => rfl
  | .If cond t e, d => by
      rcases hu : Condition.update impl cond d with ⟨r, cond'⟩
      have hc := cond_update_maxPeriod impl hper cond d
      rw [hu] at hc
      rcases hu2 : StrategyNode.update impl t d with ⟨r2, t'⟩
      have ht := node_update_maxPeriod impl hper t d
      rw [hu2] at ht
      rcases hu3 : StrategyNode.updateOpt impl e d with ⟨r3, e'⟩
      have he : StrategyNode.maxPeriodOpt impl e'
          = StrategyNode.maxPeriodOpt impl e := by
        cases e with
        | none =>
            simp only [StrategyNode.updateOpt] at hu3
            cases hu3
            rfl
        | some en =>
            rcases hu4 : StrategyNode.update impl en d with ⟨r4, en'⟩
            have hen := node_update_maxPeriod impl hper en d
            rw [hu4] at hen
            simp only [StrategyNode.updateOpt, hu4] at hu3
            cases hu3
            simp only [StrategyNode.maxPeriodOpt]
            exact hen
      cases r with
      | error err =>
          simp only [StrategyNode.update, hu, StrategyNode.maxPeriod]
          rw [hc]
      | ok u =>
          cases r2 with
          | error err =>
              simp only [StrategyNode.update, hu, hu2,
                StrategyNode.maxPeriod]
              rw [hc, ht]
          | ok u2 =>
              simp only [StrategyNode.update, hu, hu2, hu3,
                StrategyNode.maxPeriod]
              rw [hc, ht, he]
  | .Sequence mode nodes, d => by
      simp only [StrategyNode.update, StrategyNode.maxPeriod]
      exact nodeList_update_maxPeriod impl hper nodes d
  | .Timeout cooldown remaining action, d => by
      simp only [StrategyNode.update, StrategyNode.maxPeriod]
      exact node_update_maxPeriod impl hper action d

theorem nodeList_update_maxPeriod (impl : IndicatorImpl I)
    (hper : ∀ i d, impl.period ((impl.next i d).2) = impl.period i) :
    ∀ (l : List (StrategyNode I)) (d : MarketData),
      StrategyNode.maxPeriodList impl ((StrategyNode.updateList impl l d).2)
        = StrategyNode.maxPeriodList impl l
  | [], _ => rfl
  | n :: rest, d => by
      rcases hu : StrategyNode.update impl n d with ⟨r, n'⟩
      have hn := node_update_maxPeriod impl hper n d
      rw [hu] at hn
      rcases hu2 : StrategyNode.updateList impl rest d with ⟨r2, rest'⟩
      have hrest := nodeList_update_maxPeriod impl hper rest d
      rw [hu2] at hrest
      cases r with
      | error e =>
          simp only [StrategyNode.updateList, hu,
            StrategyNode.maxPeriodList]
          rw [hn]
      | ok u =>
          simp only [StrategyNode.updateList, hu, hu2,
            StrategyNode.maxPeriodList]
          rw [hn, hrest]

end

theorem node_update_period (impl : IndicatorImpl I)
    (hper : ∀ i d, impl.period ((impl.next i d).2) = impl.period i)
    (n : StrategyNode I) (d : MarketData) :
    StrategyNode.period impl ((StrategyNode.update impl n d).2)
      = StrategyNode.period impl n := by
  simp only [StrategyNode.period]
  rw [node_update_maxPeriod impl hper n d]

theorem evaluate_ready_eq (impl : IndicatorImpl I) (s : Strategy I)
    (d : MarketData) (h : s.state = .Ready) :
    s.evaluate impl d
      = ((s.nodes.evaluate impl d).1.map some,
         { nodes := (s.nodes.evaluate impl d).2, state := .Ready }) := by
  have hnext : s.next impl = s := by
    simp [Strategy.next, h]
  simp only [Strategy.evaluate, hnext, h]

theorem evaluate_progress_lt_eq (impl : IndicatorImpl I) (s : Strategy I)
    (d : MarketData) (k : Nat) (hs : s.state = .Progress k)
    (hk : k < s.nodes.period impl) :
    s.evaluate impl d
      = ((s.nodes.update impl d).1.map (fun _ => none),
         { nodes := (s.nodes.update impl d).2,
           state := .Progress (k + 1) }) := by
  have hnext : s.next impl = { s with state := .Progress (k + 1) } := by
    simp [Strategy.next, hs, hk]
  simp only [Strategy.evaluate, hnext]

theorem evaluate_progress_ge_eq (impl : IndicatorImpl I) (s : Strategy I)
    (d : MarketData) (k : Nat) (hs : s.state = .Progress k)
    (hk : ¬ k < s.nodes.period impl) :
    s.evaluate impl d
      = ((s.nodes.evaluate impl d).1.map some,
         { nodes := (s.nodes.evaluate impl d).2, state := .Ready }) := by
  have hnext : s.next impl = { s with state := .Ready } := by
    simp [Strategy.next, hs, hk]
  simp only [Strategy.evaluate, hnext]

theorem runStrategy_snd (impl : IndicatorImpl I) (s : Strategy I)
    (d : MarketData) (rest : List MarketData) :
    (runStrategy impl s (d :: rest)).2
      = (runStrategy impl ((s.evaluate impl d).2) rest).2 := rfl

theorem runStrategy_ready (impl : IndicatorImpl I) :
    ∀ (bars : List MarketData) (s : Strategy I), s.state = .Ready →
      ((runStrategy impl s bars).2).state = .Ready
  | [], _, h => h
  | d :: rest, s, h => by
      rw [runStrategy_snd, runStrategy_ready impl rest _ ?_]
      rw [evaluate_ready_eq impl s d h]

theorem runStrategy_progress (impl : IndicatorImpl I)
    (hper : ∀ i d, impl.period ((impl.next i d).2) = impl.period i)
    (p : Nat) :
    ∀ (bars : List MarketData) (s : Strategy I) (k : Nat),
      s.state = .Progress k → s.nodes.period impl = p → k ≤ p →
      (k + bars.length ≤ p →
        ((runStrategy impl s bars).2).state = .Progress (k + bars.length) ∧
        ((runStrategy impl s bars).2).nodes.period impl = p) ∧
      (p < k + bars.length →
        ((runStrategy impl s bars).2).state = .Ready)
  | [], s, k, hs, hp, hk => by
      constructor
      · intro _
        exact ⟨by simpa using hs, by simpa using hp⟩
      · intro hlt
        exfalso
        simp only [List.length_nil] at hlt
        omega
  | d :: rest, s, k, hs, hp, hk => by
      by_cases hklt : k < p
      · have hkper : k < s.nodes.period impl := by rw [hp]; exact hklt
        have he := evaluate_progress_lt_eq impl s d k hs hkper
        have hnodes :
            ((s.evaluate impl d).2).nodes.period impl = p := by
          rw [he]
          dsimp only
          rw [node_update_period impl hper s.nodes d, hp]
        have hstate : ((s.evaluate impl d).2).state = .Progress (k + 1) := by
          rw [he]
        have ih := runStrategy_progress impl hper p rest
          ((s.evaluate impl d).2) (k + 1) hstate hnodes (by omega)
        rw [runStrategy_snd]
        constructor
        · intro hle
          simp only [List.length_cons] at hle
          obtain ⟨h1, h2⟩ := ih.1 (by omega)
          refine ⟨?_, h2⟩
          rw [h1]
          simp only [List.length_cons]
          congr 1
          omega
        · intro hlt
          simp only [List.length_cons] at hlt
          exact ih.2 (by omega)
      · have hkper : ¬ k < s.nodes.period impl := by rw [hp]; exact hklt
        have he := evaluate_progress_ge_eq impl s d k hs hkper
        have hstate : ((s.evaluate impl d).2).state = .Ready := by
          rw [he]
        rw [runStrategy_snd]
        constructor
        · intro hle
          exfalso
          simp only [List.length_cons] at hle
          omega
        · intro _
          exact runStrategy_ready impl rest _ hstate

/-- **C1.**  For every strategy tree with `max_period() == p` (`p >= 1`)
over any indicator implementation whose `period` is stable under `next`
(true of every indicator: the period is a construction parameter),
feeding a sequence of bars through `Strategy::evaluate` from a fresh
strategy yields no decision — the outcome is never `Ok(Some(_))` — on
each of the first `p` bars (those with at most `p - 1` predecessors),
and a real decision — never `Ok(None)` — on bar `p+1` and every bar
after it; the boundary sits exactly at `p`. -/
theorem C1_warmup_gate (impl : IndicatorImpl I)
    (hper : ∀ i d, impl.period ((impl.next i d).2) = impl.period i)
    (nodes : StrategyNode I) (p : Nat)
    (hmp : nodes.maxPeriod impl = some p) (hp1 : 1 ≤ p)
    (pre : List MarketData) (d : MarketData) :
    (pre.length < p →
      ∀ a, (((runStrategy impl (Strategy.new nodes) pre).2).evaluate
          impl d).1 ≠ .ok (some a)) ∧
    (p ≤ pre.length →
      (((runStrategy impl (Strategy.new nodes) pre).2).evaluate
          impl d).1 ≠ .ok none) := by
  have hp0 : (Strategy.new nodes).nodes.period impl = p := by
    simp [Strategy.new, StrategyNode.period, hmp]
  have hprog := runStrategy_progress impl hper p pre (Strategy.new nodes)
    0 rfl hp0 (by omega)
  constructor
  · intro hlt a
    obtain ⟨h1, h2⟩ := hprog.1 (by omega)
    have hk : (0 + pre.length)
        < ((runStrategy impl (Strategy.new nodes) pre).2).nodes.period
          impl := by
      rw [h2]
      omega
    rw [evaluate_progress_lt_eq impl _ d (0 + pre.length) h1 hk]
    cases ((runStrategy impl (Strategy.new nodes)
        pre).2).nodes.update impl d with
    | mk r nodes' =>
        cases r with
        | ok u => simp [Except.map]
        | error e => simp [Except.map]
  · intro hge
    by_cases heq : pre.length = p
    · obtain ⟨h1, h2⟩ := hprog.1 (by omega)
      have hk : ¬ (0 + pre.length)
          < ((runStrategy impl (Strategy.new nodes) pre).2).nodes.period
            impl := by
        rw [h2]
        omega
      rw [evaluate_progress_ge_eq impl _ d (0 + pre.length) h1 hk]
      cases ((runStrategy impl (Strategy.new nodes)
          pre).2).nodes.evaluate impl d with
      | mk r nodes' =>
          cases r with
          | ok u => simp [Except.map]
          | error e => simp [Except.map]
    · have hready := hprog.2 (by omega)
      rw [evaluate_ready_eq impl _ d hready]
      cases ((runStrategy impl (Strategy.new nodes)
          pre).2).nodes.evaluate impl d with
      | mk r nodes' =>
          cases r with
          | ok u => simp [Except.map]
          | error e => simp [Except.map]

/-- Witness for `C1_warmup_gate` at the concrete `If (EMA(2) > 0)`
strategy: after one warm-up bar (bar 2 of 2) there is still no decision,
and after two warm-up bars (bar 3) the outcome is never `Ok(None)`. -/
theorem C1_warmup_gate_witness :
    ((((runStrategy emaImpl (Strategy.new emaNodes2)
          [.Float 1]).2).evaluate emaImpl (.Float 2)).1
        ≠ .ok (some .Buy)) ∧
    ((((runStrategy emaImpl (Strategy.new emaNodes2)
          [.Float 1, .Float 2]).2).evaluate emaImpl (.Float 3)).1
        ≠ .ok none) :=
  ⟨(C1_warmup_gate emaImpl emaImpl_period_next emaNodes2 2
      (by simp [emaNodes2, emaCond2, StrategyNode.maxPeriod,
        Condition.maxPeriod, StrategyNode.maxPeriodOpt, optMax, emaImpl])
      (by decide) [.Float 1] (.Float 2)).1 (by decide) Action.Buy,
   (C1_warmup_gate emaImpl emaImpl_period_next emaNodes2 2
      (by simp [emaNodes2, emaCond2, StrategyNode.maxPeriod,
        Condition.maxPeriod, StrategyNode.maxPeriodOpt, optMax, emaImpl])
      (by decide) [.Float 1, .Float 2] (.Float 3)).2 (by decide)⟩

end ChipaTa
